import Mathlib

/-!
Verification of the mail indexing and retrieval engine of
`Buscador.cpp` ("Sistema de Gestión y Búsqueda de Correos").

The shallow embedding below translates the data structures and the
operations of the source file:

* `Correo` — the record struct (id, remitente, asunto, cuerpo, fecha);
  the C++ `int` identifier is modelled as `Nat` (identifiers start at 1
  and stay far below `2^31` in any run considered here).
* `Arbol` / `insertar` / `inOrden` — the binary tree `ArbolCorreos`
  ordered by the `fecha` string (`NodoCorreo` nodes holding a full
  `Correo` copy; null pointers become the `nil` constructor).
* `Estado` — the global mutable state: the monotonic counter `nextID`
  (static local of `crearCorreo`), the maps `correosPorRemitente`,
  `matrizDispersa`, `correosPorID`, plus the tree `arbol` that `main`
  keeps beside them and threads through every call.
* `crearCorreo` — record creation and indexing; `ingest` — the
  per-line ingestion step of `cargarCorreosDesdeArchivo`, which skips a
  line whose sender field is empty before anything is created (the spec
  names that outcome `InvalidInput`).
* `buscarRemitente`, `buscarPalabra`, `obtenerOrdenados`, `getById` —
  the query paths of `buscarRemitenteANSI`, `buscarPalabraANSI`,
  `verOrdenados` and the `correosPorID` lookup, stripped of the
  terminal I/O around them.

String comparison (`c.fecha < nodo->data.fecha`) is C++ lexicographic
byte comparison; it is embedded as `fechaLt`, character-by-character
lexicographic comparison of the two strings' character sequences
(on the ASCII data of this program, bytes and characters coincide).
-/

/-- The `Correo` struct of the source: identifier, sender, subject,
body and date string. -/
structure Correo where
  id : Nat
  remitente : String
  asunto : String
  cuerpo : String
  fecha : String
deriving DecidableEq, Repr

/-- Lexicographic comparison of character lists, the behaviour of
C++ `operator<` on `std::string`: compare element-wise by character
code; a proper prefix is smaller than the longer string. -/
def charListLt : List Char → List Char → Bool
  | [], [] => false
  | [], _ :: _ => true
  | _ :: _, [] => false
  | a :: as, b :: bs =>
    if a.toNat < b.toNat then true
    else if b.toNat < a.toNat then false
    else charListLt as bs

/-- The comparison `c.fecha < nodo->data.fecha` of the source. -/
def fechaLt (a b : String) : Bool :=
  charListLt a.data b.data

/-- Non-strict date order, the complement of `fechaLt`
(total order: `¬ b < a` means `a ≤ b`). -/
def fechaLe (a b : String) : Prop :=
  fechaLt b a = false

/-- The binary tree of `ArbolCorreos`: `NodoCorreo` holds a full
`Correo` copy and two child pointers; a null pointer is `nil`. -/
inductive Arbol where
  | nil : Arbol
  | nodo (izq : Arbol) (data : Correo) (der : Arbol) : Arbol
deriving DecidableEq, Repr

namespace Arbol

/-- `ArbolCorreos::insertar`: recursive descent on the `fecha` string;
strictly smaller dates go left, everything else (greater **or equal**)
goes right, a null child becomes a fresh node. -/
def insertar : Arbol → Correo → Arbol
  | nil, c => nodo nil c nil
  | nodo l d r, c =>
    if fechaLt c.fecha d.fecha then nodo (insertar l c) d r
    else nodo l d (insertar r c)

/-- `ArbolCorreos::inOrden`: left subtree, node, right subtree. -/
def inOrden : Arbol → List Correo
  | nil => []
  | nodo l d r => inOrden l ++ d :: inOrden r

end Arbol

/-- ASCII `tolower` as used by the lambda `aMinusculas` and by the
query normalization of `buscarPalabraANSI`. -/
def toLowerAscii (ch : Char) : Char :=
  if 'A' ≤ ch ∧ ch ≤ 'Z' then Char.ofNat (ch.toNat + 32) else ch

/-- ASCII `isalnum`, the character classification of the tokenizer
loop in `crearCorreo`. -/
def isAlnum (ch : Char) : Bool :=
  ('0' ≤ ch && ch ≤ '9') || ('A' ≤ ch && ch ≤ 'Z') || ('a' ≤ ch && ch ≤ 'z')

/-- The scanning loop of `crearCorreo`: accumulate consecutive
alphanumeric characters into `palabra`; a non-alphanumeric character
emits the accumulated word when non-empty; the trailing word is
emitted after the loop. -/
def tokensAux : List Char → List Char → List (List Char)
  | [], palabra => if palabra = [] then [] else [palabra]
  | ch :: rest, palabra =>
    if isAlnum ch then tokensAux rest (palabra ++ [ch])
    else if palabra = [] then tokensAux rest []
    else palabra :: tokensAux rest []

/-- The tokens `crearCorreo` indexes for a given text: lower-case the
whole text, then split into maximal alphanumeric runs. -/
def tokens (texto : List Char) : List (List Char) :=
  tokensAux (texto.map toLowerAscii) []

/-- The tokens of one record, derived from `asunto + " " + cuerpo`
exactly as `crearCorreo` builds `texto`. -/
def tokensDe (c : Correo) : List (List Char) :=
  tokens (c.asunto ++ " " ++ c.cuerpo).data

/-- The global state of the program: the static counter `nextID` of
`crearCorreo` and the three global maps, plus the tree `main` keeps
beside them. Hash maps are modelled as functions (`correosPorRemitente`,
`correosPorID`); `matrizDispersa` keeps its rows as an association
list `id ↦ token list` since `buscarPalabraANSI` iterates over the
existing rows (the token map of a row, `string ↦ 1`, is queried only
through `count`, so a token list with list membership is the same
observable). -/
structure Estado where
  nextID : Nat
  porRemitente : String → List Correo
  matriz : List (Nat × List (List Char))
  porID : Nat → Option Correo
  arbol : Arbol

/-- The state at program start: counter at 1, every map empty,
empty tree. -/
def estadoInicial : Estado :=
  { nextID := 1
    porRemitente := fun _ => []
    matriz := []
    porID := fun _ => none
    arbol := .nil }

/-- `crearCorreo`: take the next identifier, build the record, append
it to the sender bucket, store it under its id, tokenize
`asu + " " + cue` and record the token row (the row is only created
when at least one token was found, as in the source where
`matrizDispersa[c.id]` is touched only inside the emission branches).
Returns the record together with the updated state.  The tree is not
touched here: callers insert separately, as in the source. -/
def crearCorreo (e : Estado) (rem asu cue fecha : String) : Correo × Estado :=
  let c : Correo := ⟨e.nextID, rem, asu, cue, fecha⟩
  let toks := tokens (asu ++ " " ++ cue).data
  (c,
    { nextID := e.nextID + 1
      porRemitente := fun s => if s = rem then e.porRemitente s ++ [c] else e.porRemitente s
      matriz := if toks = [] then e.matriz else e.matriz ++ [(c.id, toks)]
      porID := fun i => if i = e.nextID then some c else e.porID i
      arbol := e.arbol })

/-- Outcome of one ingestion step; the spec calls the rejected case
`InvalidInput`. -/
inductive Resultado where
  | ok (c : Correo) : Resultado
  | invalidInput : Resultado
deriving DecidableEq, Repr

/-- One ingestion step, the loop body of `cargarCorreosDesdeArchivo`:
a line whose sender field is empty is skipped before anything is
created (`if (rem.empty()) continue;`) — the spec reports that outcome
as `InvalidInput`; otherwise `crearCorreo` runs and the record is
inserted into the tree. -/
def ingest (e : Estado) (rem asu cue fecha : String) : Resultado × Estado :=
  if rem = "" then (.invalidInput, e)
  else
    let p := crearCorreo e rem asu cue fecha
    (.ok p.1, { p.2 with arbol := p.2.arbol.insertar p.1 })

/-- A whole sequence of ingestion steps
(sender, subject, body, date). -/
def ingestList (e : Estado) : List (String × String × String × String) → Estado
  | [] => e
  | (rem, asu, cue, fecha) :: rest => ingestList (ingest e rem asu cue fecha).2 rest

/-- The records successfully created by a sequence of ingestion steps,
in creation order. -/
def registrosIngresados (e : Estado) : List (String × String × String × String) → List Correo
  | [] => []
  | (rem, asu, cue, fecha) :: rest =>
    match ingest e rem asu cue fecha with
    | (.ok c, e') => c :: registrosIngresados e' rest
    | (.invalidInput, e') => registrosIngresados e' rest

/-- `buscarRemitenteANSI` without the terminal I/O: look the sender up
in `correosPorRemitente` (an absent key yields the empty list, the
"no se encontraron correos" branch). -/
def buscarRemitente (e : Estado) (rem : String) : List Correo :=
  e.porRemitente rem

/-- `buscarPalabraANSI` without the terminal I/O: lower-case the query
with the same per-character rule as ingestion, then collect the ids of
every `matrizDispersa` row containing the token. -/
def buscarPalabra (e : Estado) (palabra : String) : List Nat :=
  let p := palabra.data.map toLowerAscii
  (e.matriz.filter (fun fila => decide (p ∈ fila.2))).map Prod.fst

/-- `verOrdenados` / `obtenerOrdenados`: the in-order traversal of the
date tree. -/
def obtenerOrdenados (e : Estado) : List Correo :=
  e.arbol.inOrden

/-- The `correosPorID` lookup (`get_by_id` of the spec); an absent id
is `none` (`NotFound`). -/
def getById (e : Estado) (i : Nat) : Option Correo :=
  e.porID i

/-- Strict lexicographic order on records by date first and, for equal
dates, by identifier.  Identifiers grow with creation order, so this
relation spells out "earlier date, or same date but created earlier". -/
def lexLt (a b : Correo) : Prop :=
  fechaLt a.fecha b.fecha = true ∨ (a.fecha = b.fecha ∧ a.id < b.id)

/-- Strict order on records by identifier alone. -/
def idLt (a b : Correo) : Prop :=
  a.id < b.id

instance : IsAntisymm Correo idLt :=
  ⟨fun _ _ h h' => absurd h' (Nat.lt_asymm h)⟩

/-- The search invariant the tree of the source actually maintains:
dates in a left subtree are strictly below the node's date; every
record in the right subtree is either strictly later or shares the
date but carries a larger identifier (it was inserted afterwards). -/
inductive SearchLex : Arbol → Prop
  | nil : SearchLex .nil
  | nodo {l : Arbol} {d : Correo} {r : Arbol} :
      (∀ x ∈ l.inOrden, fechaLt x.fecha d.fecha = true) →
      (∀ x ∈ r.inOrden, lexLt d x) →
      SearchLex l → SearchLex r → SearchLex (.nodo l d r)

/-- Pure binary-search-tree ordering on dates: left subtree strictly
below the node's date, right subtree at or above it. -/
inductive BSTOrden : Arbol → Prop
  | nil : BSTOrden .nil
  | nodo {l : Arbol} {d : Correo} {r : Arbol} :
      (∀ x ∈ l.inOrden, fechaLt x.fecha d.fecha = true) →
      (∀ x ∈ r.inOrden, fechaLe d.fecha x.fecha) →
      BSTOrden l → BSTOrden r → BSTOrden (.nodo l d r)

/-- Consistency between the global state reached by a run and the list
`regs` of records created so far (in creation order): the counter is
one past the number of records, identifiers are exactly `1..n` in
creation order, `correosPorID` stores exactly the created records,
every sender bucket is the creation-order sublist for that sender, the
sparse-matrix rows are exactly the non-empty token lists of created
records, and the tree is a `SearchLex`-ordered arrangement of the
created records. -/
structure InvEstado (e : Estado) (regs : List Correo) : Prop where
  nextID_eq : e.nextID = regs.length + 1
  ids_eq : regs.map Correo.id = List.range' 1 regs.length
  porID_iff : ∀ i c, e.porID i = some c ↔ (c ∈ regs ∧ c.id = i)
  porRem_eq : ∀ s, e.porRemitente s = regs.filter (fun c => decide (c.remitente = s))
  matriz_mem : ∀ p ∈ e.matriz, ∃ c ∈ regs, p.1 = c.id ∧ p.2 = tokensDe c ∧ p.2 ≠ []
  matriz_complete : ∀ c ∈ regs, tokensDe c ≠ [] → (c.id, tokensDe c) ∈ e.matriz
  arbol_perm : e.arbol.inOrden.Perm regs
  arbol_lex : SearchLex e.arbol

/-- The state after running a sequence of ingestion steps from program
start. -/
def estadoFinal (entradas : List (String × String × String × String)) : Estado :=
  ingestList estadoInicial entradas

/-- The records created by a sequence of ingestion steps from program
start, in creation order. -/
def registros (entradas : List (String × String × String × String)) : List Correo :=
  registrosIngresados estadoInicial entradas

/-- First input line of the spec's concrete scenario. -/
def entA : String × String × String × String :=
  ("a@x.com", "Hi", "Hi there", "2025-01-02")

/-- Second input line of the spec's concrete scenario. -/
def entB : String × String × String × String :=
  ("b@x.com", "Yo", "Hi all", "2025-01-01")

/-- The record the scenario's first ingestion creates. -/
def recA : Correo :=
  ⟨1, "a@x.com", "Hi", "Hi there", "2025-01-02"⟩

/-- The record the scenario's second ingestion creates. -/
def recB : Correo :=
  ⟨2, "b@x.com", "Yo", "Hi all", "2025-01-01"⟩

/-- Two ingestion lines sharing one date, for probing how the tree
treats equal keys. -/
def entIgual1 : String × String × String × String :=
  ("a@x.com", "s1", "b1", "2025-01-01")

/-- Second ingestion line with the same date as `entIgual1`. -/
def entIgual2 : String × String × String × String :=
  ("b@x.com", "s2", "b2", "2025-01-01")

/-- The record `entIgual1` creates. -/
def recIgual1 : Correo :=
  ⟨1, "a@x.com", "s1", "b1", "2025-01-01"⟩

/-- The record `entIgual2` creates. -/
def recIgual2 : Correo :=
  ⟨2, "b@x.com", "s2", "b2", "2025-01-01"⟩

/-- Lexicographic comparison is irreflexive. -/
theorem charListLt_irrefl (l : List Char) : charListLt l l = false := by
  induction l with
  | nil => rfl
  | cons a as ih => simp [charListLt, ih]

/-- Lexicographic comparison is transitive. -/
theorem charListLt_trans {a b c : List Char} (h1 : charListLt a b = true)
    (h2 : charListLt b c = true) : charListLt a c = true := by
  induction a generalizing b c with
  | nil =>
    cases c with
    | nil =>
      cases b with
      | nil => simp [charListLt] at h2
      | cons y ys => simp [charListLt] at h2
    | cons z zs => simp [charListLt]
  | cons x xs ih =>
    cases b with
    | nil => simp [charListLt] at h1
    | cons y ys =>
      cases c with
      | nil => simp [charListLt] at h2
      | cons z zs =>
        by_cases hxy : x.toNat < y.toNat
        · by_cases hyz : y.toNat < z.toNat
          · simp [charListLt, Nat.lt_trans hxy hyz]
          · by_cases hzy : z.toNat < y.toNat
            · simp [charListLt, hyz, hzy] at h2
            · have hzeq : y.toNat = z.toNat := Nat.le_antisymm (Nat.le_of_not_lt hzy) (Nat.le_of_not_lt hyz)
              simp [charListLt, hzeq ▸ hxy]
        · by_cases hyx : y.toNat < x.toNat
          · simp [charListLt, hxy, hyx] at h1
          · have hxeq : x.toNat = y.toNat := Nat.le_antisymm (Nat.le_of_not_lt hyx) (Nat.le_of_not_lt hxy)
            simp [charListLt, hxy, hyx] at h1
            by_cases hyz : y.toNat < z.toNat
            · simp [charListLt, hxeq ▸ hyz]
            · by_cases hzy : z.toNat < y.toNat
              · simp [charListLt, hyz, hzy] at h2
              · simp [charListLt, hyz, hzy] at h2
                have hyeq : y.toNat = z.toNat := Nat.le_antisymm (Nat.le_of_not_lt hzy) (Nat.le_of_not_lt hyz)
                have hxz : ¬ x.toNat < z.toNat := by omega
                have hzx : ¬ z.toNat < x.toNat := by omega
                simp [charListLt, hxz, hzx]
                exact ih h1 h2

/-- Two lists neither of which is lexicographically below the other
are equal. -/
theorem charListLt_conn {a b : List Char} (h1 : charListLt a b = false)
    (h2 : charListLt b a = false) : a = b := by
  induction a generalizing b with
  | nil =>
    cases b with
    | nil => rfl
    | cons y ys => simp [charListLt] at h1
  | cons x xs ih =>
    cases b with
    | nil => simp [charListLt] at h2
    | cons y ys =>
      by_cases hxy : x.toNat < y.toNat
      · simp [charListLt, hxy] at h1
      · by_cases hyx : y.toNat < x.toNat
        · simp [charListLt, hyx] at h2
        · have hxeq : x.toNat = y.toNat := Nat.le_antisymm (Nat.le_of_not_lt hyx) (Nat.le_of_not_lt hxy)
          have hx : x = y := Char.eq_of_val_eq (UInt32.toNat.inj hxeq)
          simp [charListLt, hxy, hyx] at h1 h2
          exact hx ▸ congrArg (x :: ·) (ih h1 h2)

/-- Date comparison is irreflexive. -/
theorem fechaLt_irrefl (s : String) : fechaLt s s = false :=
  charListLt_irrefl _

/-- Date comparison is transitive. -/
theorem fechaLt_trans {a b c : String} (h1 : fechaLt a b = true)
    (h2 : fechaLt b c = true) : fechaLt a c = true :=
  charListLt_trans h1 h2

/-- Date comparison is asymmetric. -/
theorem fechaLt_asymm {a b : String} (h : fechaLt a b = true) : fechaLt b a = false := by
  cases hba : fechaLt b a with
  | false => rfl
  | true => exact absurd (fechaLt_trans h hba) (by simp [fechaLt_irrefl])

/-- Two dates neither of which is below the other are equal. -/
theorem fechaLt_conn {a b : String} (h1 : fechaLt a b = false)
    (h2 : fechaLt b a = false) : a = b := by
  cases a with
  | mk da =>
    cases b with
    | mk db => exact congrArg String.mk (charListLt_conn h1 h2)

/-- Combine a strict step with a non-strict one: `a < d ≤ x` gives
`a < x`. -/
theorem fechaLt_of_lt_of_nlt {a d x : String} (h1 : fechaLt a d = true)
    (h2 : fechaLt x d = false) : fechaLt a x = true := by
  cases hdx : fechaLt d x with
  | true => exact fechaLt_trans h1 hdx
  | false => exact (fechaLt_conn hdx h2) ▸ h1

/-- Inserting into the tree adds exactly the new record to the
in-order traversal, as a permutation. -/
theorem inOrden_insertar (t : Arbol) (c : Correo) :
    (t.insertar c).inOrden.Perm (c :: t.inOrden) := by
  induction t with
  | nil => simp [Arbol.insertar, Arbol.inOrden]
  | nodo l d r ihl ihr =>
    by_cases h : fechaLt c.fecha d.fecha
    · simpa [Arbol.insertar, Arbol.inOrden, h] using ihl.append_right (d :: r.inOrden)
    · have step : (l.inOrden ++ d :: (r.insertar c).inOrden).Perm
          (l.inOrden ++ d :: c :: r.inOrden) :=
        ((ihr.cons d).append_left l.inOrden)
      have move : (l.inOrden ++ d :: c :: r.inOrden).Perm
          (c :: (l.inOrden ++ d :: r.inOrden)) := by
        have : l.inOrden ++ d :: c :: r.inOrden = (l.inOrden ++ [d]) ++ c :: r.inOrden := by
          simp
        rw [this]
        have := @List.perm_middle Correo c (l.inOrden ++ [d]) r.inOrden
        simpa using this
      simpa [Arbol.insertar, Arbol.inOrden, h] using step.trans move

/-- Membership in the tree after an insertion. -/
theorem mem_insertar {t : Arbol} {c x : Correo} :
    x ∈ (t.insertar c).inOrden ↔ x = c ∨ x ∈ t.inOrden := by
  rw [(inOrden_insertar t c).mem_iff]
  simp

/-- Inserting a record whose identifier exceeds every identifier in
the tree preserves the search invariant. -/
theorem searchLex_insertar {t : Arbol} {c : Correo}
    (hid : ∀ x ∈ t.inOrden, x.id < c.id) (h : SearchLex t) :
    SearchLex (t.insertar c) := by
  induction h with
  | nil =>
    refine SearchLex.nodo ?_ ?_ SearchLex.nil SearchLex.nil <;> simp [Arbol.inOrden]
  | @nodo l d r hl hr sl sr ihl ihr =>
    have hd : d.id < c.id := hid d (by simp [Arbol.inOrden])
    have hidl : ∀ x ∈ l.inOrden, x.id < c.id := fun x hx =>
      hid x (by simp [Arbol.inOrden, hx])
    have hidr : ∀ x ∈ r.inOrden, x.id < c.id := fun x hx =>
      hid x (by simp [Arbol.inOrden, hx])
    by_cases hc : fechaLt c.fecha d.fecha
    · rw [Arbol.insertar, if_pos hc]
      refine SearchLex.nodo ?_ hr (ihl hidl) sr
      intro x hx
      rcases mem_insertar.mp hx with rfl | hx
      · exact hc
      · exact hl x hx
    · rw [Arbol.insertar, if_neg hc]
      refine SearchLex.nodo hl ?_ sl (ihr hidr)
      intro x hx
      rcases mem_insertar.mp hx with rfl | hx
      · cases hdc : fechaLt d.fecha x.fecha with
        | true => exact Or.inl hdc
        | false =>
          exact Or.inr ⟨fechaLt_conn hdc (Bool.of_not_eq_true hc), hd⟩
      · exact hr x hx

/-- The in-order traversal of a `SearchLex` tree is strictly sorted in
the date-then-identifier lexicographic order. -/
theorem pairwise_inOrden {t : Arbol} (h : SearchLex t) :
    List.Pairwise lexLt t.inOrden := by
  induction h with
  | nil => simp [Arbol.inOrden]
  | @nodo l d r hl hr sl sr ihl ihr =>
    rw [Arbol.inOrden, List.pairwise_append]
    refine ⟨ihl, List.pairwise_cons.mpr ⟨hr, ihr⟩, ?_⟩
    intro a ha b hb
    rcases List.mem_cons.mp hb with rfl | hb
    · exact Or.inl (hl a ha)
    · rcases hr b hb with hdb | ⟨hdb, _⟩
      · exact Or.inl (fechaLt_trans (hl a ha) hdb)
      · exact Or.inl (hdb ▸ hl a ha)

/-- The search invariant implies the plain binary-search-tree date
ordering: left strictly below, right at or above. -/
theorem bstOrden_of_searchLex {t : Arbol} (h : SearchLex t) : BSTOrden t := by
  induction h with
  | nil => exact BSTOrden.nil
  | @nodo l d r hl hr sl sr ihl ihr =>
    refine BSTOrden.nodo hl ?_ ihl ihr
    intro x hx
    rcases hr x hx with hdx | ⟨hdx, _⟩
    · exact fechaLt_asymm hdx
    · exact hdx ▸ fechaLt_irrefl x.fecha

/-- An ingestion step with an empty sender is a complete no-op on the
state. -/
theorem ingest_vacio (e : Estado) (asu cue fecha : String) :
    ingest e "" asu cue fecha = (.invalidInput, e) := by
  simp [ingest]

/-- Created-record list: a line with an empty sender contributes
nothing. -/
theorem registros_cons_vacio (e : Estado) (asu cue fecha : String)
    (rest : List (String × String × String × String)) :
    registrosIngresados e (("", asu, cue, fecha) :: rest) = registrosIngresados e rest := by
  simp [registrosIngresados, ingest]

/-- Created-record list: a line with a non-empty sender contributes
the record `crearCorreo` builds. -/
theorem registros_cons_ok (e : Estado) {rem : String} (asu cue fecha : String)
    (rest : List (String × String × String × String)) (h : rem ≠ "") :
    registrosIngresados e ((rem, asu, cue, fecha) :: rest) =
      (crearCorreo e rem asu cue fecha).1 ::
        registrosIngresados (ingest e rem asu cue fecha).2 rest := by
  simp [registrosIngresados, ingest, h]

/-- Every identifier recorded so far is below the counter. -/
theorem id_lt_nextID {e : Estado} {regs : List Correo} (inv : InvEstado e regs)
    {c : Correo} (hc : c ∈ regs) : c.id < e.nextID := by
  have : c.id ∈ regs.map Correo.id := List.mem_map_of_mem Correo.id hc
  rw [inv.ids_eq] at this
  have := List.mem_range'_1.mp this
  have := inv.nextID_eq
  omega

/-- One successful ingestion step preserves the state/record-list
consistency, extending the record list by the created record. -/
theorem invEstado_step {e : Estado} {regs : List Correo} (inv : InvEstado e regs)
    {rem : String} (asu cue fecha : String) (h : rem ≠ "") :
    InvEstado (ingest e rem asu cue fecha).2
      (regs ++ [(crearCorreo e rem asu cue fecha).1]) := by
  set c0 : Correo := ⟨e.nextID, rem, asu, cue, fecha⟩ with hc0
  have hcrear : (crearCorreo e rem asu cue fecha).1 = c0 := rfl
  have hid0 : c0.id = e.nextID := rfl
  set toks := tokens (asu ++ " " ++ cue).data with htoks
  have htoksDe : tokensDe c0 = toks := rfl
  have hstate : (ingest e rem asu cue fecha).2 =
      { nextID := e.nextID + 1
        porRemitente := fun s => if s = rem then e.porRemitente s ++ [c0] else e.porRemitente s
        matriz := if toks = [] then e.matriz else e.matriz ++ [(c0.id, toks)]
        porID := fun i => if i = e.nextID then some c0 else e.porID i
        arbol := e.arbol.insertar c0 } := by
    simp [ingest, crearCorreo, h, htoks]
  rw [hcrear, hstate]
  refine ⟨?_, ?_, ?_, ?_, ?_, ?_, ?_, ?_⟩
  · simp [inv.nextID_eq]
  · simp only [List.map_append, List.map_cons, List.map_nil, List.length_append,
      List.length_cons, List.length_nil, inv.ids_eq, hid0, inv.nextID_eq]
    rw [List.range'_1_concat]
    simp [Nat.add_comm]
  · intro i c
    by_cases hi : i = e.nextID
    · subst hi
      show (if e.nextID = e.nextID then some c0 else e.porID e.nextID) = some c ↔
        (c ∈ regs ++ [c0] ∧ c.id = e.nextID)
      rw [if_pos rfl]
      constructor
      · intro hsome
        have : c0 = c := Option.some.inj hsome
        subst this
        exact ⟨List.mem_append_right _ (List.mem_singleton.mpr rfl), rfl⟩
      · rintro ⟨hmem, hcid⟩
        rcases List.mem_append.mp hmem with hmem | hmem
        · exact absurd hcid (Nat.ne_of_lt (id_lt_nextID inv hmem))
        · rw [List.mem_singleton.mp hmem]
    · simp only [if_neg hi]
      rw [inv.porID_iff i c]
      constructor
      · rintro ⟨hmem, hcid⟩
        exact ⟨List.mem_append_left _ hmem, hcid⟩
      · rintro ⟨hmem, hcid⟩
        rcases List.mem_append.mp hmem with hmem | hmem
        · exact ⟨hmem, hcid⟩
        · rw [List.mem_singleton.mp hmem] at hcid
          exact absurd (hcid.symm.trans hid0) hi
  · intro s
    by_cases hs : s = rem
    · subst hs
      simp only [if_pos rfl, List.filter_append, inv.porRem_eq s]
      simp [hc0]
    · simp only [if_neg hs, List.filter_append, inv.porRem_eq s]
      have : (decide (c0.remitente = s)) = false := by
        simp [hc0]
        exact fun hrs => hs hrs.symm
      simp [List.filter, this]
  · intro p hp
    by_cases ht : toks = []
    · rw [if_pos ht] at hp
      obtain ⟨c, hc, h1, h2, h3⟩ := inv.matriz_mem p hp
      exact ⟨c, List.mem_append_left _ hc, h1, h2, h3⟩
    · rw [if_neg ht] at hp
      rcases List.mem_append.mp hp with hp | hp
      · obtain ⟨c, hc, h1, h2, h3⟩ := inv.matriz_mem p hp
        exact ⟨c, List.mem_append_left _ hc, h1, h2, h3⟩
      · rw [List.mem_singleton.mp hp]
        exact ⟨c0, List.mem_append_right _ (List.mem_singleton.mpr rfl), rfl,
          htoksDe.symm, htoksDe ▸ ht⟩
  · intro c hc hne
    rcases List.mem_append.mp hc with hc | hc
    · have hold := inv.matriz_complete c hc hne
      by_cases ht : toks = []
      · rw [if_pos ht]
        exact hold
      · rw [if_neg ht]
        exact List.mem_append_left _ hold
    · rw [List.mem_singleton.mp hc]
      rw [List.mem_singleton.mp hc, htoksDe] at hne
      rw [if_neg hne, htoksDe]
      exact List.mem_append_right _ (List.mem_singleton.mpr rfl)
  · exact (inOrden_insertar e.arbol c0).trans
      ((inv.arbol_perm.cons c0).trans (List.perm_append_singleton c0 regs).symm)
  · refine searchLex_insertar ?_ inv.arbol_lex
    intro x hx
    have : x ∈ regs := inv.arbol_perm.mem_iff.mp hx
    exact hid0 ▸ id_lt_nextID inv this

/-- Running a sequence of ingestion steps from any consistent state
stays consistent, extending the record list by the records the
sequence creates. -/
theorem invEstado_ingestList (entradas : List (String × String × String × String)) :
    ∀ (e : Estado) (regs : List Correo), InvEstado e regs →
      InvEstado (ingestList e entradas) (regs ++ registrosIngresados e entradas) := by
  induction entradas with
  | nil =>
    intro e regs inv
    simpa [ingestList, registrosIngresados] using inv
  | cons p rest ih =>
    obtain ⟨rem, asu, cue, fecha⟩ := p
    intro e regs inv
    by_cases h : rem = ""
    · subst h
      rw [ingestList, ingest_vacio, registros_cons_vacio]
      exact ih e regs inv
    · rw [ingestList, registros_cons_ok e asu cue fecha rest h]
      have step := invEstado_step inv asu cue fecha h
      have := ih _ _ step
      simpa using this

/-- The state reached from program start is consistent with the list
of created records. -/
theorem invEstado_final (entradas : List (String × String × String × String)) :
    InvEstado (estadoFinal entradas) (registros entradas) := by
  have base : InvEstado estadoInicial [] := by
    refine ⟨rfl, rfl, ?_, ?_, ?_, ?_, ?_, SearchLex.nil⟩
    · intro i c
      simp [estadoInicial]
    · intro s
      simp [estadoInicial]
    · intro p hp
      simp [estadoInicial] at hp
    · intro c hc
      simp at hc
    · simp [estadoInicial, Arbol.inOrden]
  simpa [estadoFinal, registros] using invEstado_ingestList entradas estadoInicial [] base

/-- Every token the scanning loop emits is a non-empty run of
alphanumeric characters (given an all-alphanumeric accumulator). -/
theorem tokensAux_wf : ∀ (rest palabra : List Char),
    (∀ ch ∈ palabra, isAlnum ch = true) →
    ∀ t ∈ tokensAux rest palabra, t ≠ [] ∧ ∀ ch ∈ t, isAlnum ch = true := by
  intro rest
  induction rest with
  | nil =>
    intro palabra hpal t ht
    by_cases hp : palabra = []
    · simp [tokensAux, hp] at ht
    · simp only [tokensAux, if_neg hp, List.mem_singleton] at ht
      subst ht
      exact ⟨hp, hpal⟩
  | cons ch rest ih =>
    intro palabra hpal t ht
    rw [tokensAux] at ht
    by_cases ha : isAlnum ch = true
    · rw [if_pos ha] at ht
      refine ih (palabra ++ [ch]) ?_ t ht
      intro x hx
      rcases List.mem_append.mp hx with hx | hx
      · exact hpal x hx
      · rw [List.mem_singleton.mp hx]
        exact ha
    · rw [if_neg ha] at ht
      by_cases hp : palabra = []
      · rw [if_pos hp] at ht
        exact ih [] (by simp) t ht
      · rw [if_neg hp] at ht
        rcases List.mem_cons.mp ht with rfl | ht
        · exact ⟨hp, hpal⟩
        · exact ih [] (by simp) t ht

/-- Every indexed token is a non-empty run of alphanumeric
characters. -/
theorem tokens_wf {texto : List Char} :
    ∀ t ∈ tokens texto, t ≠ [] ∧ ∀ ch ∈ t, isAlnum ch = true :=
  tokensAux_wf _ [] (by simp)

/-- C4: an ingestion whose sender is empty is reported as
`InvalidInput`, consumes no identifier from the counter, and leaves
the ordered enumeration, every sender bucket and every keyword query
unchanged — the whole state is untouched. -/
theorem claim4_ingest_remitente_vacio_sin_efecto (e : Estado) (asu cue fecha : String) :
    (ingest e "" asu cue fecha).1 = .invalidInput ∧
    (ingest e "" asu cue fecha).2 = e ∧
    (ingest e "" asu cue fecha).2.nextID = e.nextID ∧
    obtenerOrdenados (ingest e "" asu cue fecha).2 = obtenerOrdenados e ∧
    (∀ s, buscarRemitente (ingest e "" asu cue fecha).2 s = buscarRemitente e s) ∧
    (∀ w, buscarPalabra (ingest e "" asu cue fecha).2 w = buscarPalabra e w) := by
  simp [ingest_vacio]

/-- C6: a successful ingestion (non-empty sender) returns a record
which `get_by_id` then finds, equal field by field (same value). -/
theorem claim6_ingest_getById (e : Estado) (rem asu cue fecha : String) (h : rem ≠ "") :
    ∃ c, (ingest e rem asu cue fecha).1 = .ok c ∧
      getById (ingest e rem asu cue fecha).2 c.id = some c := by
  refine ⟨⟨e.nextID, rem, asu, cue, fecha⟩, ?_, ?_⟩
  · simp [ingest, crearCorreo, h]
  · simp [ingest, crearCorreo, h, getById]

/-- Witness for C6 at a concrete input. -/
theorem claim6_testigo :
    ∃ c, (ingest estadoInicial "a@x.com" "Hi" "Hi there" "2025-01-02").1 = .ok c ∧
      getById (ingest estadoInicial "a@x.com" "Hi" "Hi there" "2025-01-02").2 c.id = some c :=
  claim6_ingest_getById estadoInicial "a@x.com" "Hi" "Hi there" "2025-01-02" (by decide)

/-- C9: the spec's concrete scenario: after ingesting `entA` then
`entB`, the ordered enumeration is [b's record, a's record], the
sender query for `a@x.com` returns exactly a's record, the keyword
`hi` matches both records (ids 1 and 2) and `there` only a's. -/
theorem claim9_escenario_concreto :
    obtenerOrdenados (estadoFinal [entA, entB]) = [recB, recA] ∧
    buscarRemitente (estadoFinal [entA, entB]) "a@x.com" = [recA] ∧
    buscarPalabra (estadoFinal [entA, entB]) "hi" = [1, 2] ∧
    getById (estadoFinal [entA, entB]) 1 = some recA ∧
    getById (estadoFinal [entA, entB]) 2 = some recB ∧
    buscarPalabra (estadoFinal [entA, entB]) "there" = [1] := by
  decide

/-- C3 fails on the code: inserting a second record with the same
date does **not** merge into the existing node's bucket — it creates
a fresh node in the right subtree, so two distinct tree nodes hold
equal date-keys and an equal key does occur in a right subtree. -/
theorem claim3_contraejemplo :
    (estadoFinal [entIgual1, entIgual2]).arbol =
      .nodo .nil recIgual1 (.nodo .nil recIgual2 .nil) ∧
    recIgual1.fecha = recIgual2.fecha ∧
    recIgual1 ≠ recIgual2 ∧
    ¬ ((estadoFinal [entIgual1, entIgual2]).arbol.inOrden.map Correo.fecha).Nodup := by
  decide

/-- C3 amended: equal date-keys descend into the right subtree as new
nodes; the invariant the tree maintains is that left-subtree keys are
strictly below the node's key and right-subtree keys are at or above
it. -/
theorem claim3_enmendado_bst_orden (entradas : List (String × String × String × String)) :
    BSTOrden (estadoFinal entradas).arbol :=
  bstOrden_of_searchLex (invEstado_final entradas).arbol_lex

/-- C8 fails on the code: the ordered-index tree node and the sender
bucket both hold a full copy of the record — sender, subject, body and
date text — not just its identifier. -/
theorem claim8_contraejemplo :
    (estadoFinal [entA]).arbol = .nodo .nil recA .nil ∧
    buscarRemitente (estadoFinal [entA]) "a@x.com" = [recA] ∧
    recA.asunto = "Hi" ∧ recA.cuerpo = "Hi there" := by
  decide

/-- C5: a sender query returns exactly the created records whose
sender equals the query string (exact, case-sensitive comparison), in
creation order, and nothing else; an unknown sender yields the empty
list. -/
theorem claim5_buscarRemitente_exacto (entradas : List (String × String × String × String))
    (s : String) :
    buscarRemitente (estadoFinal entradas) s =
      (registros entradas).filter (fun c => decide (c.remitente = s)) :=
  (invEstado_final entradas).porRem_eq s

/-- C7: identifiers are handed out from the counter starting at 1 with
no gaps and no reuse — after the run the created records carry exactly
the identifiers `1..n` in creation order, and `get_by_id` succeeds for
precisely those. -/
theorem claim7_ids_monotonos (entradas : List (String × String × String × String)) :
    (registros entradas).map Correo.id = List.range' 1 (registros entradas).length ∧
    ∀ i, (getById (estadoFinal entradas) i).isSome = true ↔
      (1 ≤ i ∧ i ≤ (registros entradas).length) := by
  have inv := invEstado_final entradas
  refine ⟨inv.ids_eq, ?_⟩
  intro i
  rw [getById, Option.isSome_iff_exists]
  constructor
  · rintro ⟨c, hc⟩
    obtain ⟨hmem, hcid⟩ := (inv.porID_iff i c).mp hc
    have : c.id ∈ (registros entradas).map Correo.id := List.mem_map_of_mem _ hmem
    rw [inv.ids_eq] at this
    have := List.mem_range'_1.mp this
    omega
  · rintro ⟨h1, h2⟩
    have : i ∈ (registros entradas).map Correo.id := by
      rw [inv.ids_eq]
      exact List.mem_range'_1.mpr ⟨h1, by omega⟩
    obtain ⟨c, hmem, hcid⟩ := List.mem_map.mp this
    exact ⟨c, (inv.porID_iff i c).mpr ⟨hmem, hcid⟩⟩

/-- C1: a keyword query contains a stored record's id exactly when the
query, lower-cased character by character with the ingestion rule,
occurs among the maximal alphanumeric runs of the record's lower-cased
`subject + " " + body`. -/
theorem claim1_buscarPalabra_iff_token (entradas : List (String × String × String × String))
    (w : String) (i : Nat) :
    i ∈ buscarPalabra (estadoFinal entradas) w ↔
      ∃ c, getById (estadoFinal entradas) i = some c ∧
        w.data.map toLowerAscii ∈ tokens (c.asunto ++ " " ++ c.cuerpo).data := by
  have inv := invEstado_final entradas
  simp only [buscarPalabra, List.mem_map, List.mem_filter, decide_eq_true_eq]
  constructor
  · rintro ⟨fila, ⟨hmem, hq⟩, hfst⟩
    obtain ⟨c, hcreg, h1, h2, _⟩ := inv.matriz_mem fila hmem
    refine ⟨c, ?_, ?_⟩
    · rw [getById]
      exact (inv.porID_iff i c).mpr ⟨hcreg, by rw [← h1, hfst]⟩
    · show w.data.map toLowerAscii ∈ tokensDe c
      rw [← h2]
      exact hq
  · rintro ⟨c, hc, htok⟩
    have htok' : w.data.map toLowerAscii ∈ tokensDe c := htok
    obtain ⟨hcreg, hcid⟩ := (inv.porID_iff i c).mp hc
    have hne : tokensDe c ≠ [] := by
      intro hnil
      rw [hnil] at htok'
      exact absurd htok' (List.not_mem_nil _)
    exact ⟨(c.id, tokensDe c), ⟨inv.matriz_complete c hcreg hne, htok'⟩, hcid⟩

/-- C2: the ordered enumeration is non-decreasing in the date-key
(lexicographic string order), and for each date the records carrying
it appear exactly as in the creation-order list — ties keep ingestion
order. -/
theorem claim2_ordenados_no_decreciente_estable
    (entradas : List (String × String × String × String)) (d : String) :
    List.Pairwise (fun a b => fechaLe a.fecha b.fecha)
      (obtenerOrdenados (estadoFinal entradas)) ∧
    (obtenerOrdenados (estadoFinal entradas)).filter (fun c => decide (c.fecha = d)) =
      (registros entradas).filter (fun c => decide (c.fecha = d)) := by
  have inv := invEstado_final entradas
  have hpw : List.Pairwise lexLt (obtenerOrdenados (estadoFinal entradas)) :=
    pairwise_inOrden inv.arbol_lex
  constructor
  · refine hpw.imp ?_
    intro a b hab
    rcases hab with hab | ⟨hab, _⟩
    · exact fechaLt_asymm hab
    · rw [fechaLe, ← hab]
      exact fechaLt_irrefl a.fecha
  · have hperm := (inv.arbol_perm.filter (fun c => decide (c.fecha = d)))
    have hsorted1 : List.Pairwise idLt
        ((obtenerOrdenados (estadoFinal entradas)).filter (fun c => decide (c.fecha = d))) := by
      refine (hpw.filter (fun c => decide (c.fecha = d))).imp_of_mem ?_
      intro a b ha hb hab
      have hda : a.fecha = d := of_decide_eq_true (List.mem_filter.mp ha).2
      have hdb : b.fecha = d := of_decide_eq_true (List.mem_filter.mp hb).2
      rcases hab with hab | ⟨_, hid⟩
      · rw [hda, hdb] at hab
        exact absurd hab (by simp [fechaLt_irrefl])
      · exact hid
    have hsorted2 : List.Pairwise idLt
        ((registros entradas).filter (fun c => decide (c.fecha = d))) := by
      have hmapPw : List.Pairwise (fun a b => a < b) ((registros entradas).map Correo.id) := by
        rw [inv.ids_eq]
        exact List.pairwise_lt_range' 1 (registros entradas).length
      exact (List.pairwise_map.mp hmapPw).filter (fun c => decide (c.fecha = d))
    exact List.eq_of_perm_of_sorted hperm hsorted1 hsorted2

/-- C8 amended: the ordered index and the sender index hold full
record copies rather than bare identifiers, but the copies can never
diverge from the store: every record a tree node or sender bucket
holds is exactly what `correosPorID` stores under its identifier, and
every sparse-matrix row belongs to a stored record and holds exactly
that record's token list. -/
theorem claim8_enmendado_copias_consistentes
    (entradas : List (String × String × String × String)) :
    (∀ c ∈ obtenerOrdenados (estadoFinal entradas),
      getById (estadoFinal entradas) c.id = some c) ∧
    (∀ s, ∀ c ∈ buscarRemitente (estadoFinal entradas) s,
      getById (estadoFinal entradas) c.id = some c) ∧
    (∀ p ∈ (estadoFinal entradas).matriz,
      ∃ c, getById (estadoFinal entradas) p.1 = some c ∧ p.2 = tokensDe c) := by
  have inv := invEstado_final entradas
  refine ⟨?_, ?_, ?_⟩
  · intro c hc
    have hmem : c ∈ registros entradas := inv.arbol_perm.mem_iff.mp hc
    exact (inv.porID_iff c.id c).mpr ⟨hmem, rfl⟩
  · intro s c hc
    have hc' : c ∈ (registros entradas).filter (fun c => decide (c.remitente = s)) := by
      rw [buscarRemitente, inv.porRem_eq s] at hc
      exact hc
    have hmem : c ∈ registros entradas := (List.mem_filter.mp hc').1
    exact (inv.porID_iff c.id c).mpr ⟨hmem, rfl⟩
  · intro p hp
    obtain ⟨c, hcreg, h1, h2, _⟩ := inv.matriz_mem p hp
    exact ⟨c, (inv.porID_iff p.1 c).mpr ⟨hcreg, h1.symm⟩, h2⟩

/-- Witness for the amended C8 at a concrete input. -/
theorem claim8_testigo : getById (estadoFinal [entA]) recA.id = some recA :=
  (claim8_enmendado_copias_consistentes [entA]).1 recA (by decide)

/-- C10: a keyword query that lower-cases to the empty string or
contains a non-alphanumeric character can never equal an indexed
token (tokens are non-empty all-alphanumeric runs), so the query
returns the empty result for every ingestion history. -/
theorem claim10_consulta_no_token_vacia
    (entradas : List (String × String × String × String)) (w : String)
    (h : w.data.map toLowerAscii = [] ∨
      ∃ ch ∈ w.data.map toLowerAscii, isAlnum ch = false) :
    buscarPalabra (estadoFinal entradas) w = [] := by
  have inv := invEstado_final entradas
  simp only [buscarPalabra, List.map_eq_nil_iff, List.filter_eq_nil_iff, decide_eq_true_eq]
  intro fila hmem hw
  obtain ⟨c, _, _, h2, _⟩ := inv.matriz_mem fila hmem
  rw [h2] at hw
  have hwf := tokens_wf _ hw
  rcases h with h | ⟨ch, hch, hchal⟩
  · exact hwf.1 h
  · exact absurd (hwf.2 ch hch) (by simp [hchal])

/-- Witness for C10 at a concrete input. -/
theorem claim10_testigo : buscarPalabra (estadoFinal [entA]) "a b" = [] :=
  claim10_consulta_no_token_vacia [entA] "a b" (by decide)
